import Mathlib

/-!
Verification of the alias-table library (`AliasTable.hpp`).

The C++ source provides two templated functions:

* `BuildAliasTable(probabilities, n, tableProbs, tableAliases)` — Vose's alias
  method with a min-heap (`small`) and a max-heap (`large`) worklist;
* `SampleAliasTable(urand01, tableProbs, tableAliases, n)` — O(1) sampling.

Shallow embedding choices:

* the generic real type `T` is modelled by `ℚ` (exact arithmetic);
* the generic index type `TIndex` is modelled by `ℕ`, and the reserved
  no-alias sentinel `~TIndex(0)` (the maximum representable index) is
  modelled by `none : Option ℕ`, so an alias-table entry is `Option ℕ`;
* the caller-supplied buffers are Lean lists; a pointer read `a[i]` becomes
  `List.getD a i d` and a write becomes `List.set`;
* the two `std::priority_queue` worklists are modelled by lists of indices
  together with an extract-extremum operation (`popMin` / `popMax`): how the
  heap stores its elements internally is immaterial, only which element a pop
  delivers matters, and while an index sits in a worklist its `tableProbs`
  entry is never written, so the pop always delivers a current extremum;
* the `while` loop becomes structural recursion on a fuel argument that the
  wrapper instantiates with the total worklist size; `buildLoop_finishes`
  proves this fuel is never exhausted (the loop always exits because a
  worklist empties), so the fuelled function agrees with the C++ loop.
  `buildLoop` additionally returns the number of executed iterations, used
  to verify the termination claim.
-/

namespace AliasTable

/-- One step of `std::priority_queue::top/pop` on a worklist of indices:
`extractBy pick l` returns the chosen element and the remaining list, or
`none` when the worklist is empty.  `pick a b = true` means `a` is preferred
over `b` (ties prefer the earlier element; the C++ heap leaves tie order
unspecified). -/
def extractBy (pick : ℕ → ℕ → Bool) : List ℕ → Option (ℕ × List ℕ)
  | [] => none
  | i :: rest =>
    match extractBy pick rest with
    | none => some (i, [])
    | some (j, rest') => if pick i j then some (i, rest) else some (j, i :: rest')

/-- Pop of the `small` min-heap (comparator `WorklistEntryGreater`, i.e. the
heap yields the index with the smallest `tableProbs` value). -/
def popMin (probs : List ℚ) (wl : List ℕ) : Option (ℕ × List ℕ) :=
  extractBy (fun a b => decide (probs.getD a 0 ≤ probs.getD b 0)) wl

/-- Pop of the `large` max-heap (comparator `WorklistEntryLess`, i.e. the
heap yields the index with the largest `tableProbs` value). -/
def popMax (probs : List ℚ) (wl : List ℕ) : Option (ℕ × List ℕ) :=
  extractBy (fun a b => decide (probs.getD b 0 ≤ probs.getD a 0)) wl

/-- The mutable state of `BuildAliasTable`: the two output buffers and the
two worklists. -/
structure BuildState where
  probs : List ℚ
  aliases : List (Option ℕ)
  small : List ℕ
  large : List ℕ
deriving Repr, DecidableEq

/-- The main worklist loop of `BuildAliasTable`:

    while(!small.empty() && !large.empty())
    {
        const TIndex s = small.top(); small.pop();
        const TIndex l = large.top(); large.pop();
        tableAliases[s] = l;
        tableProbs[l] = (tableProbs[l] + tableProbs[s]) - 1;
        if(tableProbs[l] < T(1)) small.push(l); else large.push(l);
    }

The result pairs the final state with the number of iterations executed.
The fuel argument only bounds the recursion; `buildLoop_finishes` shows the
loop always stops because a worklist empties, never because fuel runs out,
when started with fuel ≥ total worklist size. -/
def buildLoop : ℕ → BuildState → BuildState × ℕ
  | 0, st => (st, 0)
  | fuel + 1, st =>
    match popMin st.probs st.small, popMax st.probs st.large with
    | some (s, small'), some (l, large') =>
      let probs' := st.probs.set l ((st.probs.getD l 0 + st.probs.getD s 0) - 1)
      let aliases' := st.aliases.set s (some l)
      let st' : BuildState :=
        if probs'.getD l 0 < 1 then
          ⟨probs', aliases', l :: small', large'⟩
        else
          ⟨probs', aliases', small', l :: large'⟩
      let r := buildLoop fuel st'
      (r.1, r.2 + 1)
    | _, _ => (st, 0)

/-- The drain loops after the main loop: each remaining worklist entry has its
`tableProbs` entry overwritten with `1`:

    while(!small.empty()) { tableProbs[small.top()] = T(1); small.pop(); }
    while(!large.empty()) { tableProbs[large.top()] = T(1); large.pop(); }
-/
def drain (probs : List ℚ) (wl : List ℕ) : List ℚ :=
  wl.foldl (fun ps i => ps.set i 1) probs

/-- The initialisation loop of `BuildAliasTable`: scale each probability by
`n`, set every alias to the sentinel, and partition the indices into the
`small` worklist (`tableProbs[i] < 1`) and the `large` worklist (the rest),
in index order (the push order of the C++ loop). -/
def initState (probabilities : List ℚ) : BuildState :=
  let n := probabilities.length
  let probs0 := probabilities.map (fun p => p * (n : ℚ))
  { probs := probs0
    aliases := List.replicate n none
    small := (List.range n).filter (fun i => decide (probs0.getD i 0 < 1))
    large := (List.range n).filter (fun i => !decide (probs0.getD i 0 < 1)) }

/-- `BuildAliasTable` (the C++ template with `T = ℚ`): returns the pair
`(tableProbs, tableAliases)`.  `n` is the length of the input list. -/
def BuildAliasTable (probabilities : List ℚ) : List ℚ × List (Option ℕ) :=
  let st := initState probabilities
  let r := (buildLoop (st.small.length + st.large.length) st).1
  (drain (drain r.probs r.small) r.large, r.aliases)

/-- `static_cast<int>` of a non-negative-or-negative rational: C++ float-to-int
conversion truncates toward zero. -/
def truncToInt (q : ℚ) : ℤ :=
  if 0 ≤ q then ⌊q⌋ else -⌊-q⌋

/-- The slot computation of `SampleAliasTable`:

    const T nx = n * x;
    const TIndex i = static_cast<int>(nx) < n ? static_cast<int>(nx) : n - 1;

(For `static_cast<int>(nx) ≥ 0` — the whole domain `u ≥ 0` treated by the
spec — the C++ `int`-vs-`unsigned` comparison against `n` is the plain
integer comparison written here.) -/
def sampleSlot (u : ℚ) (n : ℕ) : ℕ :=
  let nx := (n : ℚ) * u
  let k := truncToInt nx
  if k < (n : ℤ) then k.toNat else n - 1

/-- `SampleAliasTable` (the C++ template with `T = ℚ`): the returned `TIndex`
is modelled as `Option ℕ` because the alias column stores the sentinel as
`none`; `some i` is an ordinary index. -/
def SampleAliasTable (u : ℚ) (tableProbs : List ℚ) (tableAliases : List (Option ℕ))
    (n : ℕ) : Option ℕ :=
  let nx := (n : ℚ) * u
  let i := sampleSlot u n
  let y := nx - (i : ℚ)
  if y < tableProbs.getD i 0 then some i else tableAliases.getD i none

/-- The Marsaglia et al. "square histogram" variant documented at the end of
`SampleAliasTable`: replace the computation of `y` and the test `y < Ui` by

    const T Vi = (Ui + i) / n;
    if(x < Vi)
-/
def SampleAliasTableSquareHist (u : ℚ) (tableProbs : List ℚ)
    (tableAliases : List (Option ℕ)) (n : ℕ) : Option ℕ :=
  let i := sampleSlot u n
  let Ui := tableProbs.getD i 0
  let Vi := (Ui + (i : ℚ)) / (n : ℚ)
  if u < Vi then some i else tableAliases.getD i none

/-! ### Helper lemmas about list reads and writes -/

theorem getD_set_self {α : Type} (l : List α) {i : ℕ} (h : i < l.length) (a d : α) :
    (l.set i a).getD i d = a := by
  simp [List.getD_eq_getElem?_getD, List.getElem?_set_self, h]

theorem getD_set_ne {α : Type} (l : List α) {i j : ℕ} (hij : i ≠ j) (a d : α) :
    (l.set i a).getD j d = l.getD j d := by
  simp [List.getD_eq_getElem?_getD, List.getElem?_set_ne hij]

theorem getD_replicate {α : Type} {n i : ℕ} (h : i < n) (d : α) :
    (List.replicate n d).getD i d = d := by
  simp [List.getD_eq_getElem?_getD, List.getElem?_replicate, h]

theorem getD_map_mul {l : List ℚ} (c : ℚ) {i : ℕ} (h : i < l.length) :
    (l.map (fun p => p * c)).getD i 0 = l.getD i 0 * c := by
  simp [List.getD_eq_getElem?_getD, List.getElem?_eq_getElem, h]

/-! ### Helper lemmas about `extractBy` (the heap pops) -/

theorem extractBy_eq_none {pick : ℕ → ℕ → Bool} {l : List ℕ}
    (h : extractBy pick l = none) : l = [] := by
  cases l with
  | nil => rfl
  | cons i rest =>
    rw [extractBy] at h
    rcases hr : extractBy pick rest with _ | ⟨j, rest'⟩ <;> rw [hr] at h
    · simp at h
    · by_cases hp : pick i j = true <;> simp [hp] at h

theorem extractBy_perm {pick : ℕ → ℕ → Bool} :
    ∀ {l : List ℕ} {j : ℕ} {r : List ℕ},
      extractBy pick l = some (j, r) → l.Perm (j :: r)
  | [], _, _, h => by simp [extractBy] at h
  | i :: rest, j, r, h => by
    rw [extractBy] at h
    rcases hr : extractBy pick rest with _ | ⟨j', rest'⟩ <;> rw [hr] at h
    · have : rest = [] := extractBy_eq_none hr
      subst this
      simp_all
    · have hperm : rest.Perm (j' :: rest') := extractBy_perm hr
      by_cases hp : pick i j' = true <;> simp [hp] at h
      · obtain ⟨h1, h2⟩ := h
        subst h1; subst h2
        exact List.Perm.refl _
      · obtain ⟨h1, h2⟩ := h
        subst h1; subst h2
        exact (hperm.cons i).trans (List.Perm.swap _ _ _)

theorem popMin_perm {probs : List ℚ} {wl : List ℕ} {s : ℕ} {r : List ℕ}
    (h : popMin probs wl = some (s, r)) : wl.Perm (s :: r) :=
  extractBy_perm h

theorem popMax_perm {probs : List ℚ} {wl : List ℕ} {s : ℕ} {r : List ℕ}
    (h : popMax probs wl = some (s, r)) : wl.Perm (s :: r) :=
  extractBy_perm h

theorem popMin_eq_none {probs : List ℚ} {wl : List ℕ}
    (h : popMin probs wl = none) : wl = [] :=
  extractBy_eq_none h

theorem popMax_eq_none {probs : List ℚ} {wl : List ℕ}
    (h : popMax probs wl = none) : wl = [] :=
  extractBy_eq_none h

/-! ### Helper lemmas about `drain` -/

theorem drain_length (wl : List ℕ) (probs : List ℚ) :
    (drain probs wl).length = probs.length := by
  induction wl generalizing probs with
  | nil => rfl
  | cons i rest ih =>
    have hstep : drain probs (i :: rest) = drain (probs.set i 1) rest := by
      simp [drain]
    rw [hstep, ih]
    simp

theorem drain_getD (wl : List ℕ) (probs : List ℚ) (i : ℕ) (hi : i < probs.length) :
    (drain probs wl).getD i 0 = if i ∈ wl then 1 else probs.getD i 0 := by
  induction wl generalizing probs with
  | nil => simp [drain]
  | cons j rest ih =>
    have hstep : drain probs (j :: rest) = drain (probs.set j 1) rest := by
      simp [drain]
    rw [hstep, ih (probs.set j 1) (by simpa using hi)]
    by_cases hmem : i ∈ rest
    · simp [hmem]
    · rw [if_neg hmem]
      by_cases hij : i = j
      · subst hij
        rw [if_pos (List.mem_cons_self i rest), getD_set_self probs hi]
      · rw [getD_set_ne probs (fun h => hij h.symm), if_neg (by simp [hij, hmem])]

/-! ### The loop invariant of `BuildAliasTable` -/

/-- The invariant maintained by the worklist loop, with `n` the number of
outcomes.  Worklist members still await processing: their alias is the
sentinel, `small` members have mass `< 1` and `large` members mass `≥ 1`.
An index in neither worklist has been popped from `small`: it carries a
valid alias and a frozen mass in `[0, 1)`. -/
structure Inv (n : ℕ) (st : BuildState) : Prop where
  probs_len : st.probs.length = n
  aliases_len : st.aliases.length = n
  small_nodup : st.small.Nodup
  large_nodup : st.large.Nodup
  disj : ∀ i, i ∈ st.small → i ∈ st.large → False
  small_mem : ∀ i ∈ st.small,
    i < n ∧ 0 ≤ st.probs.getD i 0 ∧ st.probs.getD i 0 < 1 ∧
      st.aliases.getD i none = none
  large_mem : ∀ i ∈ st.large,
    i < n ∧ 1 ≤ st.probs.getD i 0 ∧ st.aliases.getD i none = none
  done_spec : ∀ i, i < n → i ∉ st.small → i ∉ st.large →
    ∃ l, st.aliases.getD i none = some l ∧ l < n ∧
      0 ≤ st.probs.getD i 0 ∧ st.probs.getD i 0 < 1

/-- Facts available after popping `s` from `small` and `l` from `large`. -/
structure PopFacts (n : ℕ) (st : BuildState) (s l : ℕ)
    (small' large' : List ℕ) : Prop where
  s_lt : s < n
  l_lt : l < n
  s_ne_l : s ≠ l
  s_nonneg : 0 ≤ st.probs.getD s 0
  s_lt_one : st.probs.getD s 0 < 1
  l_ge_one : 1 ≤ st.probs.getD l 0
  s_alias : st.aliases.getD s none = none
  l_alias : st.aliases.getD l none = none
  rest_small_nodup : small'.Nodup
  rest_large_nodup : large'.Nodup
  s_not_rest_small : s ∉ small'
  l_not_rest_large : l ∉ large'
  small_sub : ∀ x ∈ small', x ∈ st.small
  large_sub : ∀ x ∈ large', x ∈ st.large
  l_not_in_small : l ∉ st.small
  s_not_in_large : s ∉ st.large
  l_not_rest_small : l ∉ small'
  s_not_rest_large : s ∉ large'
  s_in_small : s ∈ st.small
  l_in_large : l ∈ st.large
  small_perm : st.small.Perm (s :: small')
  large_perm : st.large.Perm (l :: large')

theorem pop_facts {n : ℕ} {st : BuildState} (hinv : Inv n st)
    {s l : ℕ} {small' large' : List ℕ}
    (hs : popMin st.probs st.small = some (s, small'))
    (hl : popMax st.probs st.large = some (l, large')) :
    PopFacts n st s l small' large' := by
  have hsp : st.small.Perm (s :: small') := popMin_perm hs
  have hlp : st.large.Perm (l :: large') := popMax_perm hl
  have hs_in : s ∈ st.small := hsp.mem_iff.mpr (List.mem_cons_self s small')
  have hl_in : l ∈ st.large := hlp.mem_iff.mpr (List.mem_cons_self l large')
  have hs_sub : ∀ x ∈ small', x ∈ st.small := fun x hx =>
    hsp.mem_iff.mpr (List.mem_cons_of_mem s hx)
  have hl_sub : ∀ x ∈ large', x ∈ st.large := fun x hx =>
    hlp.mem_iff.mpr (List.mem_cons_of_mem l hx)
  have hsnd : (s :: small').Nodup := hsp.nodup_iff.mp hinv.small_nodup
  have hlnd : (l :: large').Nodup := hlp.nodup_iff.mp hinv.large_nodup
  obtain ⟨hs_nr, hsnd'⟩ := List.nodup_cons.mp hsnd
  obtain ⟨hl_nr, hlnd'⟩ := List.nodup_cons.mp hlnd
  have hl_ns : l ∉ st.small := fun h => hinv.disj l h hl_in
  have hs_nl : s ∉ st.large := fun h => hinv.disj s hs_in h
  obtain ⟨hs_lt, hs0, hs1, hsA⟩ := hinv.small_mem s hs_in
  obtain ⟨hl_lt, hl1, hlA⟩ := hinv.large_mem l hl_in
  exact
    { s_lt := hs_lt
      l_lt := hl_lt
      s_ne_l := fun h => hinv.disj s hs_in (h ▸ hl_in)
      s_nonneg := hs0
      s_lt_one := hs1
      l_ge_one := hl1
      s_alias := hsA
      l_alias := hlA
      rest_small_nodup := hsnd'
      rest_large_nodup := hlnd'
      s_not_rest_small := hs_nr
      l_not_rest_large := hl_nr
      small_sub := hs_sub
      large_sub := hl_sub
      l_not_in_small := hl_ns
      s_not_in_large := hs_nl
      l_not_rest_small := fun h => hl_ns (hs_sub l h)
      s_not_rest_large := fun h => hs_nl (hl_sub s h)
      s_in_small := hs_in
      l_in_large := hl_in
      small_perm := hsp
      large_perm := hlp }

theorem initState_inv (p : List ℚ) (hpos : ∀ x ∈ p, 0 ≤ x) :
    Inv p.length (initState p) := by
  have hlen : (p.map (fun q => q * (p.length : ℚ))).length = p.length := by simp
  have hget : ∀ i, i < p.length →
      (p.map (fun q => q * (p.length : ℚ))).getD i 0 = p.getD i 0 * p.length :=
    fun i hi => getD_map_mul _ hi
  have hnonneg : ∀ i, i < p.length →
      0 ≤ (p.map (fun q => q * (p.length : ℚ))).getD i 0 := by
    intro i hi
    rw [hget i hi]
    have : p.getD i 0 = p[i] := List.getD_eq_getElem p 0 hi
    rw [this]
    exact mul_nonneg (hpos _ (List.getElem_mem hi)) (Nat.cast_nonneg _)
  refine
    { probs_len := hlen
      aliases_len := by simp [initState]
      small_nodup := List.Nodup.filter _ (List.nodup_range _)
      large_nodup := List.Nodup.filter _ (List.nodup_range _)
      disj := ?_
      small_mem := ?_
      large_mem := ?_
      done_spec := ?_ }
  · intro i hiS hiL
    simp only [initState, List.mem_filter] at hiS hiL
    rw [hiS.2] at hiL
    simp at hiL
  · intro i hiS
    simp only [initState, List.mem_filter, List.mem_range, decide_eq_true_eq] at hiS
    exact ⟨hiS.1, hnonneg i hiS.1, hiS.2, getD_replicate hiS.1 none⟩
  · intro i hiL
    simp only [initState, List.mem_filter, List.mem_range, Bool.not_eq_true',
      decide_eq_false_iff_not, not_lt] at hiL
    exact ⟨hiL.1, hiL.2, getD_replicate hiL.1 none⟩
  · intro i hi hiS hiL
    exfalso
    simp only [initState, List.mem_filter, List.mem_range, decide_eq_true_eq,
      Bool.not_eq_true', decide_eq_false_iff_not, not_lt] at hiS hiL
    rcases lt_or_le ((p.map (fun q => q * (p.length : ℚ))).getD i 0) 1 with h | h
    · exact hiS ⟨hi, h⟩
    · exact hiL ⟨hi, h⟩

theorem step_inv_small {n : ℕ} {st : BuildState} (hinv : Inv n st)
    {s l : ℕ} {small' large' : List ℕ}
    (hs : popMin st.probs st.small = some (s, small'))
    (hl : popMax st.probs st.large = some (l, large'))
    (hcond : (st.probs.set l ((st.probs.getD l 0 + st.probs.getD s 0) - 1)).getD l 0 < 1) :
    Inv n ⟨st.probs.set l ((st.probs.getD l 0 + st.probs.getD s 0) - 1),
      st.aliases.set s (some l), l :: small', large'⟩ := by
  have pf := pop_facts hinv hs hl
  have hlP : l < st.probs.length := by rw [hinv.probs_len]; exact pf.l_lt
  have hsA : s < st.aliases.length := by rw [hinv.aliases_len]; exact pf.s_lt
  have hP'l : (st.probs.set l ((st.probs.getD l 0 + st.probs.getD s 0) - 1)).getD l 0 =
      (st.probs.getD l 0 + st.probs.getD s 0) - 1 := getD_set_self _ hlP _ _
  have hP'ne : ∀ j, j ≠ l →
      (st.probs.set l ((st.probs.getD l 0 + st.probs.getD s 0) - 1)).getD j 0 =
        st.probs.getD j 0 := fun j hj => getD_set_ne _ (fun h => hj h.symm) _ _
  have hA's : (st.aliases.set s (some l)).getD s none = some l := getD_set_self _ hsA _ _
  have hA'ne : ∀ j, j ≠ s →
      (st.aliases.set s (some l)).getD j none = st.aliases.getD j none :=
    fun j hj => getD_set_ne _ (fun h => hj h.symm) _ _
  refine
    { probs_len := by simpa using hinv.probs_len
      aliases_len := by simpa using hinv.aliases_len
      small_nodup := List.nodup_cons.mpr ⟨pf.l_not_rest_small, pf.rest_small_nodup⟩
      large_nodup := pf.rest_large_nodup
      disj := ?_
      small_mem := ?_
      large_mem := ?_
      done_spec := ?_ }
  · intro i hiS hiL
    rcases List.mem_cons.mp hiS with rfl | hiS'
    · exact pf.l_not_rest_large hiL
    · exact hinv.disj i (pf.small_sub i hiS') (pf.large_sub i hiL)
  · intro i hi
    rcases List.mem_cons.mp hi with rfl | hi'
    · refine ⟨pf.l_lt, ?_, hcond, ?_⟩
      · rw [hP'l]
        have h1 := pf.l_ge_one
        have h2 := pf.s_nonneg
        linarith
      · rw [hA'ne i pf.s_ne_l.symm]
        exact pf.l_alias
    · obtain ⟨hilt, h0, h1, hA⟩ := hinv.small_mem i (pf.small_sub i hi')
      have hil : i ≠ l := fun h => pf.l_not_in_small (h ▸ pf.small_sub i hi')
      have his : i ≠ s := fun h => pf.s_not_rest_small (h ▸ hi')
      exact ⟨hilt, by rw [hP'ne i hil]; exact h0, by rw [hP'ne i hil]; exact h1,
        by rw [hA'ne i his]; exact hA⟩
  · intro i hi
    obtain ⟨hilt, h1, hA⟩ := hinv.large_mem i (pf.large_sub i hi)
    have hil : i ≠ l := fun h => pf.l_not_rest_large (h ▸ hi)
    have his : i ≠ s := fun h => pf.s_not_in_large (h ▸ pf.large_sub i hi)
    exact ⟨hilt, by rw [hP'ne i hil]; exact h1, by rw [hA'ne i his]; exact hA⟩
  · intro i hi hiS hiL
    have hil : i ≠ l := fun h => hiS (h ▸ List.mem_cons_self l small')
    have hiS' : i ∉ small' := fun h => hiS (List.mem_cons_of_mem l h)
    by_cases hio : i ∈ st.small
    · rcases List.mem_cons.mp (pf.small_perm.mem_iff.mp hio) with rfl | hmem
      · exact ⟨l, hA's, pf.l_lt, by rw [hP'ne i hil]; exact pf.s_nonneg,
          by rw [hP'ne i hil]; exact pf.s_lt_one⟩
      · exact absurd hmem hiS'
    · by_cases hio' : i ∈ st.large
      · rcases List.mem_cons.mp (pf.large_perm.mem_iff.mp hio') with rfl | hmem
        · exact absurd rfl hil
        · exact absurd hmem hiL
      · obtain ⟨l₀, hA0, hl0, h0, h1⟩ := hinv.done_spec i hi hio hio'
        have his : i ≠ s := fun h => hio (h ▸ pf.s_in_small)
        exact ⟨l₀, by rw [hA'ne i his]; exact hA0, hl0,
          by rw [hP'ne i hil]; exact h0, by rw [hP'ne i hil]; exact h1⟩

theorem step_inv_large {n : ℕ} {st : BuildState} (hinv : Inv n st)
    {s l : ℕ} {small' large' : List ℕ}
    (hs : popMin st.probs st.small = some (s, small'))
    (hl : popMax st.probs st.large = some (l, large'))
    (hcond : ¬ (st.probs.set l ((st.probs.getD l 0 + st.probs.getD s 0) - 1)).getD l 0 < 1) :
    Inv n ⟨st.probs.set l ((st.probs.getD l 0 + st.probs.getD s 0) - 1),
      st.aliases.set s (some l), small', l :: large'⟩ := by
  have pf := pop_facts hinv hs hl
  have hlP : l < st.probs.length := by rw [hinv.probs_len]; exact pf.l_lt
  have hsA : s < st.aliases.length := by rw [hinv.aliases_len]; exact pf.s_lt
  have hP'ne : ∀ j, j ≠ l →
      (st.probs.set l ((st.probs.getD l 0 + st.probs.getD s 0) - 1)).getD j 0 =
        st.probs.getD j 0 := fun j hj => getD_set_ne _ (fun h => hj h.symm) _ _
  have hA's : (st.aliases.set s (some l)).getD s none = some l := getD_set_self _ hsA _ _
  have hA'ne : ∀ j, j ≠ s →
      (st.aliases.set s (some l)).getD j none = st.aliases.getD j none :=
    fun j hj => getD_set_ne _ (fun h => hj h.symm) _ _
  refine
    { probs_len := by simpa using hinv.probs_len
      aliases_len := by simpa using hinv.aliases_len
      small_nodup := pf.rest_small_nodup
      large_nodup := List.nodup_cons.mpr ⟨pf.l_not_rest_large, pf.rest_large_nodup⟩
      disj := ?_
      small_mem := ?_
      large_mem := ?_
      done_spec := ?_ }
  · intro i hiS hiL
    rcases List.mem_cons.mp hiL with rfl | hiL'
    · exact pf.l_not_rest_small hiS
    · exact hinv.disj i (pf.small_sub i hiS) (pf.large_sub i hiL')
  · intro i hi'
    obtain ⟨hilt, h0, h1, hA⟩ := hinv.small_mem i (pf.small_sub i hi')
    have hil : i ≠ l := fun h => pf.l_not_in_small (h ▸ pf.small_sub i hi')
    have his : i ≠ s := fun h => pf.s_not_rest_small (h ▸ hi')
    exact ⟨hilt, by rw [hP'ne i hil]; exact h0, by rw [hP'ne i hil]; exact h1,
      by rw [hA'ne i his]; exact hA⟩
  · intro i hi
    rcases List.mem_cons.mp hi with rfl | hi'
    · refine ⟨pf.l_lt, not_lt.mp hcond, ?_⟩
      rw [hA'ne i pf.s_ne_l.symm]
      exact pf.l_alias
    · obtain ⟨hilt, h1, hA⟩ := hinv.large_mem i (pf.large_sub i hi')
      have hil : i ≠ l := fun h => pf.l_not_rest_large (h ▸ hi')
      have his : i ≠ s := fun h => pf.s_not_in_large (h ▸ pf.large_sub i hi')
      exact ⟨hilt, by rw [hP'ne i hil]; exact h1, by rw [hA'ne i his]; exact hA⟩
  · intro i hi hiS hiL
    have hil : i ≠ l := fun h => hiL (h ▸ List.mem_cons_self l large')
    have hiL' : i ∉ large' := fun h => hiL (List.mem_cons_of_mem l h)
    by_cases hio : i ∈ st.small
    · rcases List.mem_cons.mp (pf.small_perm.mem_iff.mp hio) with rfl | hmem
      · exact ⟨l, hA's, pf.l_lt, by rw [hP'ne i hil]; exact pf.s_nonneg,
          by rw [hP'ne i hil]; exact pf.s_lt_one⟩
      · exact absurd hmem hiS
    · by_cases hio' : i ∈ st.large
      · rcases List.mem_cons.mp (pf.large_perm.mem_iff.mp hio') with rfl | hmem
        · exact absurd rfl hil
        · exact absurd hmem hiL'
      · obtain ⟨l₀, hA0, hl0, h0, h1⟩ := hinv.done_spec i hi hio hio'
        have his : i ≠ s := fun h => hio (h ▸ pf.s_in_small)
        exact ⟨l₀, by rw [hA'ne i his]; exact hA0, hl0,
          by rw [hP'ne i hil]; exact h0, by rw [hP'ne i hil]; exact h1⟩

theorem buildLoop_inv (fuel : ℕ) : ∀ {n : ℕ} (st : BuildState),
    Inv n st → Inv n (buildLoop fuel st).1 := by
  induction fuel with
  | zero => intro n st h; exact h
  | succ fuel ih =>
    intro n st h
    rcases hs : popMin st.probs st.small with _ | ⟨s, small'⟩
    · simpa only [buildLoop, hs] using h
    · rcases hl : popMax st.probs st.large with _ | ⟨l, large'⟩
      · simpa only [buildLoop, hs, hl] using h
      · simp only [buildLoop, hs, hl]
        by_cases hcond :
          (st.probs.set l ((st.probs.getD l 0 + st.probs.getD s 0) - 1)).getD l 0 < 1
        · rw [if_pos hcond]
          exact ih _ (step_inv_small h hs hl hcond)
        · rw [if_neg hcond]
          exact ih _ (step_inv_large h hs hl hcond)

theorem buildLoop_finishes (fuel : ℕ) : ∀ st : BuildState,
    st.small.length + st.large.length ≤ fuel →
    (buildLoop fuel st).1.small = [] ∨ (buildLoop fuel st).1.large = [] := by
  induction fuel with
  | zero =>
    intro st h
    left
    have h1 : st.small.length = 0 := by omega
    simpa only [buildLoop] using List.length_eq_zero.mp h1
  | succ fuel ih =>
    intro st h
    rcases hs : popMin st.probs st.small with _ | ⟨s, small'⟩
    · left
      simpa only [buildLoop, hs] using popMin_eq_none hs
    · rcases hl : popMax st.probs st.large with _ | ⟨l, large'⟩
      · right
        simpa only [buildLoop, hs, hl] using popMax_eq_none hl
      · simp only [buildLoop, hs, hl]
        have hslen : st.small.length = small'.length + 1 := by
          simpa using (popMin_perm hs).length_eq
        have hllen : st.large.length = large'.length + 1 := by
          simpa using (popMax_perm hl).length_eq
        by_cases hcond :
          (st.probs.set l ((st.probs.getD l 0 + st.probs.getD s 0) - 1)).getD l 0 < 1
        · rw [if_pos hcond]
          refine ih _ ?_
          simp only [List.length_cons]
          omega
        · rw [if_neg hcond]
          refine ih _ ?_
          simp only [List.length_cons]
          omega

theorem buildLoop_count (fuel : ℕ) : ∀ st : BuildState,
    (buildLoop fuel st).2 ≤ st.small.length + st.large.length := by
  induction fuel with
  | zero => intro st; simp [buildLoop]
  | succ fuel ih =>
    intro st
    rcases hs : popMin st.probs st.small with _ | ⟨s, small'⟩
    · simp [buildLoop, hs]
    · rcases hl : popMax st.probs st.large with _ | ⟨l, large'⟩
      · simp only [buildLoop, hs, hl]
        omega
      · simp only [buildLoop, hs, hl]
        have hslen : st.small.length = small'.length + 1 := by
          simpa using (popMin_perm hs).length_eq
        have hllen : st.large.length = large'.length + 1 := by
          simpa using (popMax_perm hl).length_eq
        by_cases hcond :
          (st.probs.set l ((st.probs.getD l 0 + st.probs.getD s 0) - 1)).getD l 0 < 1
        · rw [if_pos hcond]
          have := ih ⟨st.probs.set l ((st.probs.getD l 0 + st.probs.getD s 0) - 1),
            st.aliases.set s (some l), l :: small', large'⟩
          simp only [List.length_cons] at this ⊢
          omega
        · rw [if_neg hcond]
          have := ih ⟨st.probs.set l ((st.probs.getD l 0 + st.probs.getD s 0) - 1),
            st.aliases.set s (some l), small', l :: large'⟩
          simp only [List.length_cons] at this ⊢
          omega

theorem length_filter_partition (f : ℕ → Bool) (l : List ℕ) :
    (l.filter f).length + (l.filter (fun x => !f x)).length = l.length := by
  induction l with
  | nil => rfl
  | cons a t ih => cases hfa : f a <;> simp [List.filter_cons, hfa] <;> omega

theorem initState_sizes (p : List ℚ) :
    (initState p).small.length + (initState p).large.length = p.length := by
  have h := length_filter_partition
    (fun i => decide ((p.map (fun q => q * (p.length : ℚ))).getD i 0 < 1))
    (List.range p.length)
  simpa [initState] using h

/-! ### The specification of a finished build -/

theorem post_drain_spec {n : ℕ} {r : BuildState} (hinv : Inv n r) :
    (drain (drain r.probs r.small) r.large).length = n ∧
    r.aliases.length = n ∧
    ∀ i, i < n →
      (0 ≤ (drain (drain r.probs r.small) r.large).getD i 0 ∧
        (drain (drain r.probs r.small) r.large).getD i 0 ≤ 1) ∧
      (r.aliases.getD i none = none →
        (drain (drain r.probs r.small) r.large).getD i 0 = 1) ∧
      (∀ l, r.aliases.getD i none = some l →
        l < n ∧ (drain (drain r.probs r.small) r.large).getD i 0 < 1) := by
  refine ⟨by rw [drain_length, drain_length, hinv.probs_len], hinv.aliases_len, ?_⟩
  intro i hi
  have hiP : i < r.probs.length := by rw [hinv.probs_len]; exact hi
  have hiP2 : i < (drain r.probs r.small).length := by rw [drain_length]; exact hiP
  have hout : (drain (drain r.probs r.small) r.large).getD i 0 =
      if i ∈ r.large then 1 else if i ∈ r.small then 1 else r.probs.getD i 0 := by
    rw [drain_getD _ _ _ hiP2, drain_getD _ _ _ hiP]
  by_cases hS : i ∈ r.small
  · have hnotL : i ∉ r.large := fun h => hinv.disj i hS h
    have hval : (drain (drain r.probs r.small) r.large).getD i 0 = 1 := by
      rw [hout, if_neg hnotL, if_pos hS]
    obtain ⟨-, -, -, hA⟩ := hinv.small_mem i hS
    refine ⟨⟨by rw [hval]; norm_num, le_of_eq hval⟩, fun _ => hval, ?_⟩
    intro l hl
    rw [hA] at hl
    exact absurd hl (by simp)
  · by_cases hL : i ∈ r.large
    · have hval : (drain (drain r.probs r.small) r.large).getD i 0 = 1 := by
        rw [hout, if_pos hL]
      obtain ⟨-, -, hA⟩ := hinv.large_mem i hL
      refine ⟨⟨by rw [hval]; norm_num, le_of_eq hval⟩, fun _ => hval, ?_⟩
      intro l hl
      rw [hA] at hl
      exact absurd hl (by simp)
    · obtain ⟨l₀, hA0, hl0, h0, h1⟩ := hinv.done_spec i hi hS hL
      have hval : (drain (drain r.probs r.small) r.large).getD i 0 = r.probs.getD i 0 := by
        rw [hout, if_neg hL, if_neg hS]
      refine ⟨⟨by rw [hval]; exact h0, by rw [hval]; linarith⟩, ?_, ?_⟩
      · intro hnone
        rw [hA0] at hnone
        exact absurd hnone (by simp)
      · intro l hl
        rw [hA0] at hl
        obtain rfl : l₀ = l := Option.some.inj hl
        exact ⟨hl0, by rw [hval]; exact h1⟩

/-- All the per-slot invariants of a finished `BuildAliasTable` run, for any
input with non-negative weights. -/
theorem build_spec (p : List ℚ) (hpos : ∀ x ∈ p, 0 ≤ x) :
    (BuildAliasTable p).1.length = p.length ∧
    (BuildAliasTable p).2.length = p.length ∧
    ∀ i, i < p.length →
      (0 ≤ (BuildAliasTable p).1.getD i 0 ∧ (BuildAliasTable p).1.getD i 0 ≤ 1) ∧
      ((BuildAliasTable p).2.getD i none = none → (BuildAliasTable p).1.getD i 0 = 1) ∧
      (∀ l, (BuildAliasTable p).2.getD i none = some l →
        l < p.length ∧ (BuildAliasTable p).1.getD i 0 < 1) :=
  post_drain_spec (buildLoop_inv _ _ (initState_inv p hpos))

/-! ### Sampler helper lemmas -/

theorem sampleSlot_lt {u : ℚ} {n : ℕ} (hn : 1 ≤ n) (hu : 0 ≤ u) :
    sampleSlot u n < n := by
  have hnx : (0 : ℚ) ≤ (n : ℚ) * u := mul_nonneg (Nat.cast_nonneg n) hu
  simp only [sampleSlot, truncToInt, if_pos hnx]
  by_cases hk : ⌊(n : ℚ) * u⌋ < (n : ℤ)
  · rw [if_pos hk]
    omega
  · rw [if_neg hk]
    omega

theorem sampleSlot_eq_floor {u : ℚ} {n : ℕ} (hn : 1 ≤ n) (hu0 : 0 ≤ u) (hu1 : u < 1) :
    ((sampleSlot u n : ℕ) : ℤ) = ⌊(n : ℚ) * u⌋ ∧
    0 ≤ (n : ℚ) * u - ((sampleSlot u n : ℕ) : ℚ) ∧
    (n : ℚ) * u - ((sampleSlot u n : ℕ) : ℚ) < 1 := by
  have hnx : (0 : ℚ) ≤ (n : ℚ) * u := mul_nonneg (Nat.cast_nonneg n) hu0
  have hnpos : (0 : ℚ) < (n : ℚ) := by exact_mod_cast hn
  have hnxlt : (n : ℚ) * u < (n : ℚ) := by nlinarith
  have hk : ⌊(n : ℚ) * u⌋ < (n : ℤ) := Int.floor_lt.mpr (by exact_mod_cast hnxlt)
  have h0 : 0 ≤ ⌊(n : ℚ) * u⌋ := Int.floor_nonneg.mpr hnx
  have hslot : sampleSlot u n = (⌊(n : ℚ) * u⌋).toNat := by
    simp only [sampleSlot, truncToInt, if_pos hnx, if_pos hk]
  have hcastZ : ((sampleSlot u n : ℕ) : ℤ) = ⌊(n : ℚ) * u⌋ := by
    rw [hslot]
    exact Int.toNat_of_nonneg h0
  have hcastQ : ((sampleSlot u n : ℕ) : ℚ) = ((⌊(n : ℚ) * u⌋ : ℤ) : ℚ) := by
    exact_mod_cast congrArg (fun z : ℤ => (z : ℚ)) hcastZ
  refine ⟨hcastZ, ?_, ?_⟩
  · rw [hcastQ]
    have := Int.floor_le ((n : ℚ) * u)
    linarith
  · rw [hcastQ]
    have := Int.lt_floor_add_one ((n : ℚ) * u)
    linarith

/-! ### Sum helper lemmas (for the mean of the table) -/

theorem sum_le_length {l : List ℚ} (h : ∀ x ∈ l, x ≤ 1) :
    l.sum ≤ (l.length : ℚ) := by
  induction l with
  | nil => simp
  | cons a t ih =>
    simp only [List.sum_cons, List.length_cons]
    have ha := h a (List.mem_cons_self a t)
    have ht := ih (fun x hx => h x (List.mem_cons_of_mem a hx))
    push_cast
    linarith

theorem sum_lt_length {l : List ℚ} (h : ∀ x ∈ l, x ≤ 1) {x₀ : ℚ} (hx₀ : x₀ ∈ l)
    (hlt : x₀ < 1) : l.sum < (l.length : ℚ) := by
  induction l with
  | nil => simp at hx₀
  | cons a t ih =>
    simp only [List.sum_cons, List.length_cons]
    have ha := h a (List.mem_cons_self a t)
    have ht := sum_le_length (fun x hx => h x (List.mem_cons_of_mem a hx))
    push_cast
    rcases List.mem_cons.mp hx₀ with rfl | hx₀'
    · linarith
    · have := ih (fun x hx => h x (List.mem_cons_of_mem a hx)) hx₀'
      push_cast at this
      linarith

theorem sum_eq_length_of_all_one {l : List ℚ} (h : ∀ x ∈ l, x = 1) :
    l.sum = (l.length : ℚ) := by
  induction l with
  | nil => simp
  | cons a t ih =>
    simp only [List.sum_cons, List.length_cons]
    rw [h a (List.mem_cons_self a t), ih (fun x hx => h x (List.mem_cons_of_mem a hx))]
    push_cast
    ring

theorem forall_getD_of_mem {α : Type} {l : List α} (d : α) {P : α → Prop}
    (h : ∀ i, i < l.length → P (l.getD i d)) : ∀ x ∈ l, P x := by
  intro x hx
  obtain ⟨i, hi, heq⟩ := List.mem_iff_getElem.mp hx
  have := h i hi
  rwa [List.getD_eq_getElem l d hi, heq] at this

theorem getD_of_lt_mem {α : Type} {l : List α} {d : α} {i : ℕ} (hi : i < l.length) :
    l.getD i d ∈ l := by
  rw [List.getD_eq_getElem l d hi]
  exact List.getElem_mem hi

/-- Concrete build of the spec's skewed two-outcome scenario. -/
theorem build_skewed_example :
    BuildAliasTable [1/10, 9/10] = ([1/5, 1], [some 1, none]) := by
  norm_num [BuildAliasTable, initState, buildLoop, popMin, popMax, extractBy, drain,
    List.range_succ, List.replicate, List.filter_cons, List.filter_nil, List.filter_append]

/-- Concrete build of the spec's `n = 1` boundary scenario. -/
theorem build_single_example :
    BuildAliasTable [1] = ([1], [none]) := by
  norm_num [BuildAliasTable, initState, buildLoop, popMin, popMax, extractBy, drain,
    List.range_succ, List.replicate, List.filter_cons, List.filter_nil, List.filter_append]

/-! ### The claims -/

/-- C2: after every successful `BuildAliasTable` call on a PMF satisfying the
preconditions, for all `i` in `[0, n)`: `0 ≤ tableProbs[i] ≤ 1`, and
`tableAliases[i]` is either the no-alias sentinel (`none`) or a valid index
in `[0, n)`. -/
theorem claim2_range_invariant (p : List ℚ) (_hn : 1 ≤ p.length)
    (hpos : ∀ x ∈ p, 0 ≤ x) (_hsum : p.sum = 1) :
    ∀ i, i < p.length →
      (0 ≤ (BuildAliasTable p).1.getD i 0 ∧ (BuildAliasTable p).1.getD i 0 ≤ 1) ∧
      ((BuildAliasTable p).2.getD i none = none ∨
        ∃ l, (BuildAliasTable p).2.getD i none = some l ∧ l < p.length) := by
  intro i hi
  obtain ⟨-, -, hspec⟩ := build_spec p hpos
  obtain ⟨hrange, hnone, hsome⟩ := hspec i hi
  refine ⟨hrange, ?_⟩
  rcases hA : (BuildAliasTable p).2.getD i none with _ | l
  · exact Or.inl rfl
  · exact Or.inr ⟨l, rfl, (hsome l hA).1⟩

theorem claim2_witness :
    1 ≤ ([(1:ℚ)/10, 9/10] : List ℚ).length ∧
    (∀ x ∈ [(1:ℚ)/10, 9/10], 0 ≤ x) ∧ ([(1:ℚ)/10, 9/10].sum = 1) ∧
    ((0 ≤ (BuildAliasTable [1/10, 9/10]).1.getD 0 0 ∧
        (BuildAliasTable [1/10, 9/10]).1.getD 0 0 ≤ 1) ∧
      ((BuildAliasTable [1/10, 9/10]).2.getD 0 none = none ∨
        ∃ l, (BuildAliasTable [1/10, 9/10]).2.getD 0 none = some l ∧
          l < ([(1:ℚ)/10, 9/10] : List ℚ).length)) :=
  ⟨by norm_num, by norm_num, by norm_num,
    claim2_range_invariant [1/10, 9/10] (by norm_num) (by norm_num) (by norm_num)
      0 (by norm_num)⟩

/-- C3: after every successful `BuildAliasTable` call on a PMF satisfying the
preconditions, a sentinel alias implies `tableProbs[i] = 1`; moreover the
drain loops force `tableProbs[i]` to exactly `1` for every slot still in a
worklist (the aliases are untouched by `drain`, so those slots keep the
sentinel). -/
theorem claim3_sentinel_full_mass (p : List ℚ) (_hn : 1 ≤ p.length)
    (hpos : ∀ x ∈ p, 0 ≤ x) (_hsum : p.sum = 1) :
    (∀ i, i < p.length → (BuildAliasTable p).2.getD i none = none →
      (BuildAliasTable p).1.getD i 0 = 1) ∧
    (∀ (probs : List ℚ) (wl : List ℕ) (i : ℕ), i ∈ wl → i < probs.length →
      (drain probs wl).getD i 0 = 1) := by
  constructor
  · intro i hi hA
    obtain ⟨-, -, hspec⟩ := build_spec p hpos
    exact (hspec i hi).2.1 hA
  · intro probs wl i hmem hlen
    rw [drain_getD wl probs i hlen, if_pos hmem]

theorem claim3_witness :
    1 ≤ ([(1:ℚ)/10, 9/10] : List ℚ).length ∧
    ((∀ i, i < ([(1:ℚ)/10, 9/10] : List ℚ).length →
        (BuildAliasTable [1/10, 9/10]).2.getD i none = none →
        (BuildAliasTable [1/10, 9/10]).1.getD i 0 = 1) ∧
      (∀ (probs : List ℚ) (wl : List ℕ) (i : ℕ), i ∈ wl → i < probs.length →
        (drain probs wl).getD i 0 = 1)) :=
  ⟨by norm_num,
    claim3_sentinel_full_mass [1/10, 9/10] (by norm_num) (by norm_num) (by norm_num)⟩

/-- C9: after every successful `BuildAliasTable` call on a PMF satisfying the
preconditions, a non-sentinel alias implies `tableProbs[i] < 1` (the converse
of C3: an index receives an alias only when popped from the small worklist
with mass `< 1`, and that entry is never modified afterwards). -/
theorem claim9_alias_implies_partial_mass (p : List ℚ) (_hn : 1 ≤ p.length)
    (hpos : ∀ x ∈ p, 0 ≤ x) (_hsum : p.sum = 1) :
    ∀ i, i < p.length → ∀ l, (BuildAliasTable p).2.getD i none = some l →
      (BuildAliasTable p).1.getD i 0 < 1 := by
  intro i hi l hA
  obtain ⟨-, -, hspec⟩ := build_spec p hpos
  exact ((hspec i hi).2.2 l hA).2

theorem claim9_witness :
    (BuildAliasTable [1/10, 9/10]).2.getD 0 none = some 1 ∧
    (BuildAliasTable [1/10, 9/10]).1.getD 0 0 < 1 := by
  have hA : (BuildAliasTable [1/10, 9/10]).2.getD 0 none = some 1 := by
    rw [build_skewed_example]
    rfl
  exact ⟨hA,
    claim9_alias_implies_partial_mass [1/10, 9/10] (by norm_num) (by norm_num)
      (by norm_num) 0 (by norm_num) 1 hA⟩

/-- C10: for every `u ≥ 0` (including out-of-contract `u ≥ 1`) and every
`n ≥ 1`, the slot index computed by `SampleAliasTable` is clamped into
`[0, n-1]`, so both reads `tableProbs[i]` and `tableAliases[i]` on length-`n`
tables are in bounds. -/
theorem claim10_slot_clamped (u : ℚ) (n : ℕ) (hn : 1 ≤ n) (hu : 0 ≤ u) :
    sampleSlot u n < n :=
  sampleSlot_lt hn hu

theorem claim10_witness : 1 ≤ 2 ∧ (0 : ℚ) ≤ 3/2 ∧ sampleSlot (3/2) 2 < 2 :=
  ⟨by norm_num, by norm_num, claim10_slot_clamped (3/2) 2 (by norm_num) (by norm_num)⟩

/-- C8: `BuildAliasTable` terminates for every input: the main worklist loop,
run with fuel equal to the total initial worklist size `n`, executes at most
`n` iterations and always exits because one worklist empties (each iteration
removes the popped small index for good and re-inserts only the large one,
so the total number of worklist entries strictly decreases). -/
theorem claim8_loop_terminates (p : List ℚ) (_hn : 1 ≤ p.length) :
    (buildLoop ((initState p).small.length + (initState p).large.length)
      (initState p)).2 ≤ p.length ∧
    ((buildLoop ((initState p).small.length + (initState p).large.length)
        (initState p)).1.small = [] ∨
      (buildLoop ((initState p).small.length + (initState p).large.length)
        (initState p)).1.large = []) := by
  constructor
  · exact (buildLoop_count _ _).trans (le_of_eq (initState_sizes p))
  · exact buildLoop_finishes _ _ le_rfl

theorem claim8_witness :
    1 ≤ ([(1:ℚ)] : List ℚ).length ∧
    ((buildLoop ((initState [(1:ℚ)]).small.length + (initState [(1:ℚ)]).large.length)
        (initState [(1:ℚ)])).2 ≤ ([(1:ℚ)] : List ℚ).length ∧
      ((buildLoop ((initState [(1:ℚ)]).small.length + (initState [(1:ℚ)]).large.length)
          (initState [(1:ℚ)])).1.small = [] ∨
        (buildLoop ((initState [(1:ℚ)]).small.length + (initState [(1:ℚ)]).large.length)
          (initState [(1:ℚ)])).1.large = [])) :=
  ⟨by norm_num, claim8_loop_terminates [(1:ℚ)] (by norm_num)⟩

/-- C7: the implemented test `y < tableProbs[i]` (with `y = u*n - i`) and the
square-histogram test `u < (tableProbs[i] + i) / n` decide identically, so
the two sampler formulations return the same index on every input (any
`u : ℚ`, any table, any `n ≥ 1`). -/
theorem claim7_square_histogram_equiv (u : ℚ) (tp : List ℚ)
    (ta : List (Option ℕ)) (n : ℕ) (hn : 1 ≤ n) :
    SampleAliasTableSquareHist u tp ta n = SampleAliasTable u tp ta n := by
  have hnpos : (0 : ℚ) < (n : ℚ) := by exact_mod_cast hn
  simp only [SampleAliasTable, SampleAliasTableSquareHist]
  have hiff : (u < (tp.getD (sampleSlot u n) 0 + ((sampleSlot u n : ℕ) : ℚ)) / (n : ℚ)) ↔
      ((n : ℚ) * u - ((sampleSlot u n : ℕ) : ℚ) < tp.getD (sampleSlot u n) 0) := by
    rw [lt_div_iff₀ hnpos]
    constructor <;> intro h <;> nlinarith
  exact if_congr hiff rfl rfl

theorem claim7_witness : 1 ≤ 2 ∧
    SampleAliasTableSquareHist (1/4) [1/5, 1] [some 1, none] 2 =
      SampleAliasTable (1/4) [1/5, 1] [some 1, none] 2 :=
  ⟨by norm_num,
    claim7_square_histogram_equiv (1/4) [1/5, 1] [some 1, none] 2 (by norm_num)⟩

/-- C4: for every `u ∈ [0,1)` and every table built from a PMF satisfying the
preconditions, `SampleAliasTable` uses the slot `i = floor(u*n)` (the clamp
to `n-1` is inactive on this domain) and returns `some j` with `j < n` —
never the sentinel: the self branch returns the in-range slot, and the alias
branch is only reachable when `tableProbs[i] ≤ y < 1`, which forces a
non-sentinel alias by the build invariants. -/
theorem claim4_sample_in_range (p : List ℚ) (hn : 1 ≤ p.length)
    (hpos : ∀ x ∈ p, 0 ≤ x) (_hsum : p.sum = 1)
    (u : ℚ) (hu0 : 0 ≤ u) (hu1 : u < 1) :
    ((sampleSlot u p.length : ℕ) : ℤ) = ⌊(p.length : ℚ) * u⌋ ∧
    ∃ j, SampleAliasTable u (BuildAliasTable p).1 (BuildAliasTable p).2 p.length =
      some j ∧ j < p.length := by
  obtain ⟨hfloor, hy0, hy1⟩ := sampleSlot_eq_floor hn hu0 hu1
  refine ⟨hfloor, ?_⟩
  obtain ⟨hlen1, hlen2, hspec⟩ := build_spec p hpos
  have hi : sampleSlot u p.length < p.length := sampleSlot_lt hn hu0
  obtain ⟨hrange, hnone, hsome⟩ := hspec _ hi
  simp only [SampleAliasTable]
  by_cases hy : (p.length : ℚ) * u - ((sampleSlot u p.length : ℕ) : ℚ) <
      (BuildAliasTable p).1.getD (sampleSlot u p.length) 0
  · rw [if_pos hy]
    exact ⟨_, rfl, hi⟩
  · rw [if_neg hy]
    rcases hA : (BuildAliasTable p).2.getD (sampleSlot u p.length) none with _ | l
    · exfalso
      rw [hnone hA] at hy
      exact hy hy1
    · exact ⟨l, rfl, (hsome l hA).1⟩

theorem claim4_witness :
    (0 : ℚ) ≤ 2/5 ∧ (2 : ℚ)/5 < 1 ∧
    (((sampleSlot (2/5) ([(1:ℚ)/10, 9/10] : List ℚ).length : ℕ) : ℤ) =
        ⌊(([(1:ℚ)/10, 9/10] : List ℚ).length : ℚ) * (2/5)⌋ ∧
      ∃ j, SampleAliasTable (2/5) (BuildAliasTable [1/10, 9/10]).1
          (BuildAliasTable [1/10, 9/10]).2 ([(1:ℚ)/10, 9/10] : List ℚ).length =
        some j ∧ j < ([(1:ℚ)/10, 9/10] : List ℚ).length) :=
  ⟨by norm_num, by norm_num,
    claim4_sample_in_range [1/10, 9/10] (by norm_num) (by norm_num) (by norm_num)
      (2/5) (by norm_num) (by norm_num)⟩

/-- C5: the skewed two-outcome scenario `probabilities = [1/10, 9/10]`,
`n = 2` builds (after scaling to `[1/5, 9/5]` and one worklist transfer)
`tableProbs = [1/5, 1]`, `tableAliases = [some 1, none]`, and against that
table `SampleAliasTable` returns `0` at `u = 1/20`, `1` (the alias) at
`u = 2/5`, and `1` at `u = 9/10`.  (`0.2` is `1/5` in the exact-arithmetic
model.) -/
theorem claim5_skewed_scenario :
    BuildAliasTable [1/10, 9/10] = ([1/5, 1], [some 1, none]) ∧
    SampleAliasTable (1/20) (BuildAliasTable [1/10, 9/10]).1
      (BuildAliasTable [1/10, 9/10]).2 2 = some 0 ∧
    SampleAliasTable (2/5) (BuildAliasTable [1/10, 9/10]).1
      (BuildAliasTable [1/10, 9/10]).2 2 = some 1 ∧
    SampleAliasTable (9/10) (BuildAliasTable [1/10, 9/10]).1
      (BuildAliasTable [1/10, 9/10]).2 2 = some 1 := by
  refine ⟨build_skewed_example, ?_, ?_, ?_⟩ <;> rw [build_skewed_example] <;>
    norm_num [SampleAliasTable, sampleSlot, truncToInt]

/-- C6: the boundary input `probabilities = [1]`, `n = 1` builds
`tableProbs = [1]`, `tableAliases = [none]`, and against that table
`SampleAliasTable` returns `some 0` for every `u ∈ [0,1)`. -/
theorem claim6_single_outcome :
    BuildAliasTable [1] = ([1], [none]) ∧
    ∀ u : ℚ, 0 ≤ u → u < 1 →
      SampleAliasTable u (BuildAliasTable [1]).1 (BuildAliasTable [1]).2 1 = some 0 := by
  refine ⟨build_single_example, ?_⟩
  intro u h0 h1
  rw [build_single_example]
  have hslot : sampleSlot u 1 = 0 := Nat.lt_one_iff.mp (sampleSlot_lt le_rfl h0)
  simp only [SampleAliasTable, hslot, List.getD_cons_zero, Nat.cast_zero,
    Nat.cast_one, one_mul, sub_zero]
  rw [if_pos h1]

theorem claim6_witness :
    SampleAliasTable (1/3) (BuildAliasTable [1]).1 (BuildAliasTable [1]).2 1 = some 0 :=
  claim6_single_outcome.2 (1/3) (by norm_num) (by norm_num)

/-- C1 counterexample: the claim "the arithmetic mean of `tableProbs` equals
1" fails on the code.  The input `[1/10, 9/10]` satisfies every precondition
(`n = 2 ≥ 1`, non-negative weights, exact sum 1), yet the built table is
`tableProbs = [1/5, 1]` whose mean is `3/5`, far outside any floating-point
tolerance of 1. -/
theorem claim1_counterexample :
    1 ≤ ([(1:ℚ)/10, 9/10] : List ℚ).length ∧
    (∀ x ∈ [(1:ℚ)/10, 9/10], 0 ≤ x) ∧
    ([(1:ℚ)/10, 9/10].sum = 1) ∧
    (BuildAliasTable [1/10, 9/10]).1.sum /
      ((([(1:ℚ)/10, 9/10] : List ℚ).length : ℕ) : ℚ) ≠ 1 := by
  refine ⟨by norm_num, by norm_num, by norm_num, ?_⟩
  rw [build_skewed_example]
  norm_num

/-- C1 (amended): after every successful `BuildAliasTable` call on a PMF
satisfying the preconditions, the arithmetic mean of `tableProbs[0..n)` is at
most 1, and it equals 1 exactly when every `tableAliases` entry is the
sentinel (e.g. the uniform PMF); the unconditional "mean = 1" of the original
claim is refuted by `claim1_counterexample`. -/
theorem claim1_mean_amended (p : List ℚ) (hn : 1 ≤ p.length)
    (hpos : ∀ x ∈ p, 0 ≤ x) (_hsum : p.sum = 1) :
    (BuildAliasTable p).1.sum / (p.length : ℚ) ≤ 1 ∧
    ((BuildAliasTable p).1.sum / (p.length : ℚ) = 1 ↔
      ∀ a ∈ (BuildAliasTable p).2, a = none) := by
  obtain ⟨hlen1, hlen2, hspec⟩ := build_spec p hpos
  have hnpos : (0 : ℚ) < (p.length : ℚ) := by exact_mod_cast hn
  have hall_le : ∀ x ∈ (BuildAliasTable p).1, x ≤ 1 := by
    refine forall_getD_of_mem 0 ?_
    intro i hi
    rw [hlen1] at hi
    exact (hspec i hi).1.2
  have hsum_le : (BuildAliasTable p).1.sum ≤ (((BuildAliasTable p).1.length : ℕ) : ℚ) :=
    sum_le_length hall_le
  rw [hlen1] at hsum_le
  refine ⟨by rw [div_le_one hnpos]; exact hsum_le, ?_, ?_⟩
  · intro hmean
    rw [div_eq_one_iff_eq hnpos.ne'] at hmean
    intro a ha
    obtain ⟨i, hi, heq⟩ := List.mem_iff_getElem.mp ha
    have hiN : i < p.length := by rw [← hlen2]; exact hi
    have hga : (BuildAliasTable p).2.getD i none = a := by
      rw [List.getD_eq_getElem _ none hi]
      exact heq
    rcases hA : (BuildAliasTable p).2.getD i none with _ | l
    · rw [hA] at hga
      exact hga.symm
    · exfalso
      have hlt := ((hspec i hiN).2.2 l hA).2
      have hmem : (BuildAliasTable p).1.getD i 0 ∈ (BuildAliasTable p).1 :=
        getD_of_lt_mem (by rw [hlen1]; exact hiN)
      have hstrict := sum_lt_length hall_le hmem hlt
      rw [hlen1] at hstrict
      rw [hmean] at hstrict
      exact lt_irrefl _ hstrict
  · intro hall
    have hone : ∀ x ∈ (BuildAliasTable p).1, x = 1 := by
      refine forall_getD_of_mem 0 ?_
      intro i hi
      rw [hlen1] at hi
      refine (hspec i hi).2.1 ?_
      exact hall _ (getD_of_lt_mem (by rw [hlen2]; exact hi))
    have hsum_eq := sum_eq_length_of_all_one hone
    rw [hlen1] at hsum_eq
    rw [hsum_eq, div_self hnpos.ne']

theorem claim1_witness :
    1 ≤ ([(1:ℚ)/2, 1/2] : List ℚ).length ∧
    (∀ x ∈ [(1:ℚ)/2, 1/2], 0 ≤ x) ∧ ([(1:ℚ)/2, 1/2].sum = 1) ∧
    ((BuildAliasTable [1/2, 1/2]).1.sum / (([(1:ℚ)/2, 1/2] : List ℚ).length : ℚ) ≤ 1 ∧
      ((BuildAliasTable [1/2, 1/2]).1.sum / (([(1:ℚ)/2, 1/2] : List ℚ).length : ℚ) = 1 ↔
        ∀ a ∈ (BuildAliasTable [1/2, 1/2]).2, a = none)) :=
  ⟨by norm_num, by norm_num, by norm_num,
    claim1_mean_amended [1/2, 1/2] (by norm_num) (by norm_num) (by norm_num)⟩

end AliasTable
